import Mathlib

set_option maxHeartbeats 1000000

/-!
Verification of the static-site builder `scripts/build_site.py`.

The Python functions are shallowly embedded as executable Lean functions:
strings become `List Char` or `String`, the regex substitution performed by
`LINK_PATTERN.sub` is modelled as an explicit leftmost shortest-group scan
with the same backtracking behaviour as the compiled pattern
`href="([^"]+?)\.md(#[^"]*)?"`, and the filesystem effects of the builder
are modelled by explicit state passing over a record of input directories
and an association list of written output files.  The markdown renderer and
the stylesheet text are opaque external inputs and appear as parameters.
-/

namespace BuildSite

/-- The six characters of the literal `href="` that opens every match of
the link pattern. -/
def HREF6 : List Char := ['h', 'r', 'e', 'f', '=', '"']

/-- Consume the literal `href="` at the head of the character list, if
present, returning the characters that follow. -/
def stripHrefEq : List Char → Option (List Char)
  | a :: b :: c :: d :: e :: f :: rest =>
    if a = 'h' ∧ b = 'r' ∧ c = 'e' ∧ d = 'f' ∧ e = '=' ∧ f = '"' then some rest else none
  | _ => none

/-- Boolean predicate for characters other than a double quote, the
character class `[^"]` of the link pattern. -/
def notQuote (c : Char) : Bool := decide (c ≠ '"')

/-- Match the tail `(#[^"]*)?"` of the link pattern: after the literal
`.md`, the match closes either immediately at a double quote (empty
fragment), or at a `#` followed by quote-free fragment characters and a
closing quote.  Returns the fragment (group 2, empty string when absent)
and the characters after the closing quote. -/
def afterMd : List Char → Option (List Char × List Char)
  | [] => none
  | c :: cs =>
    if c = '"' then some ([], cs)
    else if c = '#' then
      match cs.dropWhile notQuote with
      | [] => none
      | d :: rest => if d = '"' then some ('#' :: cs.takeWhile notQuote, rest) else none
    else none

/-- Try to close the match right here: the characters must continue with
the literal `.md` and then a valid tail (`afterMd`). -/
def isMdStop : List Char → Option (List Char × List Char)
  | a :: b :: c :: rest => if a = '.' ∧ b = 'm' ∧ c = 'd' then afterMd rest else none
  | _ => none

/-- Scan for group 1 of the link pattern with non-greedy semantics: grow the
group one (non-quote) character at a time, and stop at the first point at
which `.md` plus a valid tail follows.  Returns group 1, the fragment and
the characters after the closing quote. -/
def scanGroup1 : List Char → List Char → Option (List Char × List Char × List Char)
  | _, [] => none
  | acc, c :: cs =>
    if c = '"' then none
    else
      match isMdStop cs with
      | some (anchor, rest) => some (acc ++ [c], anchor, rest)
      | none => scanGroup1 (acc ++ [c]) cs

/-- Python `href.split("/")[-1]`: everything after the last `/` (the whole
string when no `/` occurs). -/
def finalSegment (l : List Char) : List Char :=
  (l.reverse.takeWhile (fun c => decide (c ≠ '/'))).reverse

/-- The replacement function `_replace` of `convert_links`, applied to the
captured group 1 (`g1`) and group 2 (`anchor`): external `http(s)://`
references are returned as the whole match unchanged; otherwise a
`chapters/` prefix is stripped, a path containing `/` is reduced to its
final segment, and `.md` is replaced by `.html` with the fragment kept. -/
def mkReplacement (g1 anchor : List Char) : List Char :=
  if "http://".data.isPrefixOf g1 || "https://".data.isPrefixOf g1 then
    HREF6 ++ g1 ++ ('.' :: 'm' :: 'd' :: anchor) ++ ['"']
  else
    let h1 := if "chapters/".data.isPrefixOf g1 then g1.drop 9 else g1
    let h2 := if h1.contains '/' then finalSegment h1 else h1
    HREF6 ++ h2 ++ ('.' :: 'h' :: 't' :: 'm' :: 'l' :: anchor) ++ ['"']

/-- Fuelled left-to-right substitution scan of `LINK_PATTERN.sub`: at each
position try to match the whole pattern; on success emit the replacement and
continue after the match, otherwise emit one character and continue.  The
fuel only serves termination; it is always instantiated with the length of
the list. -/
def cLA : Nat → List Char → List Char
  | 0, l => l
  | _ + 1, [] => []
  | n + 1, c :: cs =>
    match stripHrefEq (c :: cs) with
    | some cs6 =>
      match scanGroup1 [] cs6 with
      | some (g1, anchor, rest) => mkReplacement g1 anchor ++ cLA n rest
      | none => c :: cLA n cs
    | none => c :: cLA n cs

/-- `LINK_PATTERN.sub(_replace, html)` on character lists. -/
def convertLinksAux (l : List Char) : List Char := cLA l.length l

/-- The Python function `convert_links`. -/
def convert_links (s : String) : String := String.mk (convertLinksAux s.data)

/-- Group 2 of the link pattern, as passed to the replacement function:
either absent (empty) or a `#` followed by quote-free characters. -/
def validAnchor (a : List Char) : Prop := a = [] ∨ ∃ f, a = '#' :: f ∧ '"' ∉ f

theorem stripHrefEq_eq_some {l rest : List Char} :
    stripHrefEq l = some rest ↔ l = HREF6 ++ rest := by
  rcases l with _ | ⟨a, _ | ⟨b, _ | ⟨c, _ | ⟨d, _ | ⟨e, _ | ⟨f, t⟩⟩⟩⟩⟩⟩ <;>
    simp [stripHrefEq, HREF6]
  tauto

theorem afterMd_length {l : List Char} {a rest : List Char}
    (h : afterMd l = some (a, rest)) : rest.length < l.length := by
  rcases l with _ | ⟨c, cs⟩
  · simp [afterMd] at h
  · by_cases hc : c = '"'
    · simp [afterMd, hc] at h
      obtain ⟨-, rfl⟩ := h
      simp
    · by_cases hh : c = '#'
      · have hsub : (cs.dropWhile notQuote).length ≤ cs.length :=
          (List.dropWhile_sublist _).length_le
        simp only [afterMd] at h
        rw [if_neg hc, if_pos hh] at h
        split at h
        · exact absurd h (by simp)
        · rename_i d r hd
          by_cases hq : d = '"'
          · rw [if_pos hq] at h
            simp only [Option.some.injEq, Prod.mk.injEq] at h
            obtain ⟨-, rfl⟩ := h
            have h2 : (d :: r).length ≤ cs.length := by rw [← hd]; exact hsub
            simp only [List.length_cons] at h2 ⊢
            omega
          · rw [if_neg hq] at h; simp at h
      · simp [afterMd, hc, hh] at h

theorem isMdStop_length {l : List Char} {a rest : List Char}
    (h : isMdStop l = some (a, rest)) : rest.length < l.length := by
  rcases l with _ | ⟨x, _ | ⟨y, _ | ⟨z, t⟩⟩⟩ <;> simp [isMdStop] at h
  obtain ⟨-, h⟩ := h
  have := afterMd_length h
  simp only [List.length_cons]
  omega

theorem scanGroup1_length {acc cs : List Char} {g a rest : List Char}
    (h : scanGroup1 acc cs = some (g, a, rest)) : rest.length < cs.length := by
  induction cs generalizing acc with
  | nil => simp [scanGroup1] at h
  | cons c cs ih =>
    simp only [scanGroup1] at h
    by_cases hc : c = '"'
    · rw [if_pos hc] at h; simp at h
    · rw [if_neg hc] at h
      rcases hstop : isMdStop cs with _ | ⟨an, rest2⟩
      · rw [hstop] at h
        have := ih h
        simp only [List.length_cons]
        omega
      · rw [hstop] at h
        simp only [Option.some.injEq, Prod.mk.injEq] at h
        obtain ⟨-, -, rfl⟩ := h
        have := isMdStop_length hstop
        simp only [List.length_cons]
        omega

theorem stripHrefEq_length {l cs6 : List Char} (h : stripHrefEq l = some cs6) :
    l.length = cs6.length + 6 := by
  rw [stripHrefEq_eq_some.mp h]
  simp [HREF6]

theorem cLA_succ (n : Nat) (c : Char) (cs : List Char) :
    cLA (n + 1) (c :: cs) =
      match stripHrefEq (c :: cs) with
      | some cs6 =>
        match scanGroup1 [] cs6 with
        | some (g1, anchor, rest) => mkReplacement g1 anchor ++ cLA n rest
        | none => c :: cLA n cs
      | none => c :: cLA n cs := rfl

theorem cLA_fuel (n : Nat) :
    ∀ l : List Char, l.length ≤ n → cLA n l = cLA l.length l := by
  induction n using Nat.strong_induction_on with
  | _ n ih =>
    intro l hl
    rcases n with _ | n
    · obtain rfl : l = [] := List.eq_nil_of_length_eq_zero (Nat.le_zero.mp hl)
      rfl
    · rcases l with _ | ⟨c, cs⟩
      · rfl
      · have hcs : cs.length ≤ n := by
          simp only [List.length_cons] at hl; omega
        simp only [List.length_cons]
        rw [cLA_succ n, cLA_succ cs.length]
        split
        · rename_i cs6 h1
          split
          · rename_i g1 anchor rest h2
            have hrest : rest.length ≤ cs.length := by
              have ha := scanGroup1_length h2
              have hb := stripHrefEq_length h1
              simp only [List.length_cons] at hb
              omega
            rw [ih n (Nat.lt_succ_self n) rest (le_trans hrest hcs)]
            rw [ih cs.length (Nat.lt_succ_of_le hcs) rest hrest]
          · rw [ih n (Nat.lt_succ_self n) cs hcs]
        · rw [ih n (Nat.lt_succ_self n) cs hcs]

theorem convertLinksAux_nil : convertLinksAux [] = [] := rfl

theorem convertLinksAux_cons (c : Char) (cs : List Char) :
    convertLinksAux (c :: cs) =
      match stripHrefEq (c :: cs) with
      | some cs6 =>
        match scanGroup1 [] cs6 with
        | some (g1, anchor, rest) => mkReplacement g1 anchor ++ convertLinksAux rest
        | none => c :: convertLinksAux cs
      | none => c :: convertLinksAux cs := by
  rcases h1 : stripHrefEq (c :: cs) with _ | cs6
  · simp only [convertLinksAux, List.length_cons, cLA, h1]
  · rcases h2 : scanGroup1 [] cs6 with _ | ⟨g1, anchor, rest⟩
    · simp only [convertLinksAux, List.length_cons, cLA, h1, h2]
    · have hrest : rest.length ≤ cs.length := by
        have ha := scanGroup1_length h2
        have hb := stripHrefEq_length h1
        simp only [List.length_cons] at hb
        omega
      simp only [convertLinksAux, List.length_cons, cLA, h1, h2]
      rw [cLA_fuel cs.length rest hrest]

theorem takeWhile_no_quote {f : List Char} (r : List Char) (hf : '"' ∉ f) :
    (f ++ '"' :: r).takeWhile notQuote = f := by
  induction f with
  | nil => simp [notQuote]
  | cons c t ih =>
    have hc : c ≠ '"' := fun h => hf (h ▸ List.mem_cons_self c t)
    have ht : '"' ∉ t := fun h => hf (List.mem_cons_of_mem c h)
    simp [List.takeWhile_cons, notQuote, hc, ih ht]

theorem dropWhile_no_quote {f : List Char} (r : List Char) (hf : '"' ∉ f) :
    (f ++ '"' :: r).dropWhile notQuote = '"' :: r := by
  induction f with
  | nil => simp [notQuote]
  | cons c t ih =>
    have hc : c ≠ '"' := fun h => hf (h ▸ List.mem_cons_self c t)
    have ht : '"' ∉ t := fun h => hf (List.mem_cons_of_mem c h)
    simp [List.dropWhile_cons, notQuote, hc, ih ht]

theorem afterMd_anchor {a : List Char} (r : List Char) (ha : validAnchor a) :
    afterMd (a ++ '"' :: r) = some (a, r) := by
  rcases ha with rfl | ⟨f, rfl, hf⟩
  · simp [afterMd]
  · simp [afterMd, List.cons_append, dropWhile_no_quote r hf, takeWhile_no_quote r hf]

theorem afterMd_other_none {c : Char} (cs : List Char) (hq : c ≠ '"') (hh : c ≠ '#') :
    afterMd (c :: cs) = none := by
  simp [afterMd, hq, hh]

theorem isMdStop_md (t : List Char) : isMdStop ('.' :: 'm' :: 'd' :: t) = afterMd t := by
  simp [isMdStop]

theorem isMdStop_safe_none (p : List Char) (t : List Char) (hne : p ≠ [])
    (hq : '"' ∉ p) (hh : '#' ∉ p) :
    isMdStop (p ++ '.' :: 'm' :: 'd' :: t) = none := by
  rcases p with _ | ⟨x, _ | ⟨y, _ | ⟨z, q⟩⟩⟩
  · exact absurd rfl hne
  · simp [isMdStop]
  · simp [isMdStop]
  · by_cases hxyz : x = '.' ∧ y = 'm' ∧ z = 'd'
    · simp only [List.cons_append, isMdStop, if_pos hxyz]
      rcases q with _ | ⟨e, q'⟩
      · simp [afterMd]
      · have he : e ∈ x :: y :: z :: e :: q' := by simp
        exact afterMd_other_none _ (fun hx => hq (hx ▸ he)) (fun hx => hh (hx ▸ he))
    · simp [isMdStop, hxyz]

theorem scanGroup1_cons (acc : List Char) (c : Char) (cs : List Char) :
    scanGroup1 acc (c :: cs) =
      if c = '"' then none
      else
        match isMdStop cs with
        | some (anchor, rest) => some (acc ++ [c], anchor, rest)
        | none => scanGroup1 (acc ++ [c]) cs := rfl

theorem scanGroup1_eq (p : List Char) (a r : List Char) (hp : p ≠ [])
    (hq : '"' ∉ p) (hh : '#' ∉ p) (ha : validAnchor a) :
    ∀ acc, scanGroup1 acc (p ++ '.' :: 'm' :: 'd' :: (a ++ '"' :: r))
      = some (acc ++ p, a, r) := by
  induction p with
  | nil => exact absurd rfl hp
  | cons x p' ih =>
    intro acc
    have hx : x ≠ '"' := fun h => hq (h ▸ List.mem_cons_self x p')
    have hq' : '"' ∉ p' := fun h => hq (List.mem_cons_of_mem x h)
    have hh' : '#' ∉ p' := fun h => hh (List.mem_cons_of_mem x h)
    rcases p' with _ | ⟨y, p''⟩
    · rw [List.cons_append, List.nil_append, scanGroup1_cons, if_neg hx, isMdStop_md,
        afterMd_anchor r ha]
    · have hstop : isMdStop ((y :: p'') ++ '.' :: 'm' :: 'd' :: (a ++ '"' :: r)) = none :=
        isMdStop_safe_none (y :: p'') _ (by simp) hq' hh'
      rw [List.cons_append, scanGroup1_cons, if_neg hx, hstop]
      show scanGroup1 (acc ++ [x]) ((y :: p'') ++ '.' :: 'm' :: 'd' :: (a ++ '"' :: r))
        = some (acc ++ x :: y :: p'', a, r)
      rw [ih (by simp) hq' hh' (acc ++ [x])]
      simp

theorem convertLinksAux_href (p a v : List Char) (hp : p ≠ [])
    (hq : '"' ∉ p) (hh : '#' ∉ p) (ha : validAnchor a) :
    convertLinksAux (HREF6 ++ (p ++ '.' :: 'm' :: 'd' :: (a ++ '"' :: v)))
      = mkReplacement p a ++ convertLinksAux v := by
  show convertLinksAux
      ('h' :: 'r' :: 'e' :: 'f' :: '=' :: '"' :: (p ++ '.' :: 'm' :: 'd' :: (a ++ '"' :: v)))
    = mkReplacement p a ++ convertLinksAux v
  rw [convertLinksAux_cons]
  have h1 : stripHrefEq
      ('h' :: 'r' :: 'e' :: 'f' :: '=' :: '"' :: (p ++ '.' :: 'm' :: 'd' :: (a ++ '"' :: v)))
      = some (p ++ '.' :: 'm' :: 'd' :: (a ++ '"' :: v)) :=
    stripHrefEq_eq_some.mpr rfl
  have h2 := scanGroup1_eq p a v hp hq hh ha []
  simp only [List.nil_append] at h2
  simp [h1, h2]

/-- Does some suffix of the list start with the three characters `.md`? -/
def hasMd : List Char → Bool
  | [] => false
  | c :: cs => if (c :: cs).take 3 = ['.', 'm', 'd'] then true else hasMd cs

/-- Does some suffix of the list start with the six characters of `href="`? -/
def hasHref : List Char → Bool
  | [] => false
  | c :: cs => (stripHrefEq (c :: cs)).isSome || hasHref cs

theorem hasMd_cons_eq (c : Char) (cs : List Char) :
    hasMd (c :: cs) = if (c :: cs).take 3 = ['.', 'm', 'd'] then true else hasMd cs := rfl

theorem hasHref_cons_eq (c : Char) (cs : List Char) :
    hasHref (c :: cs) = ((stripHrefEq (c :: cs)).isSome || hasHref cs) := rfl

theorem hasMd_cons {c : Char} {cs : List Char} (h : hasMd (c :: cs) = false) :
    (c :: cs).take 3 ≠ ['.', 'm', 'd'] ∧ hasMd cs = false := by
  by_cases hA : (c :: cs).take 3 = ['.', 'm', 'd']
  · rw [hasMd_cons_eq, if_pos hA] at h
    exact absurd h (by simp)
  · rw [hasMd_cons_eq, if_neg hA] at h
    exact ⟨hA, h⟩

theorem hasMd_append {u v : List Char} (h : hasMd (u ++ v) = false) : hasMd v = false := by
  induction u with
  | nil => exact h
  | cons c t ih => exact ih (hasMd_cons h).2

theorem isMdStop_take {l : List Char} {x : List Char × List Char}
    (h : isMdStop l = some x) : l.take 3 = ['.', 'm', 'd'] := by
  rcases l with _ | ⟨a, _ | ⟨b, _ | ⟨c, t⟩⟩⟩ <;> simp [isMdStop] at h
  obtain ⟨⟨rfl, rfl, rfl⟩, -⟩ := h
  simp

theorem scanGroup1_hasMd {acc cs : List Char} {x : List Char × List Char × List Char}
    (h : scanGroup1 acc cs = some x) : hasMd cs = true := by
  induction cs generalizing acc with
  | nil => simp [scanGroup1] at h
  | cons c cs ih =>
    rw [scanGroup1_cons] at h
    by_cases hc : c = '"'
    · rw [if_pos hc] at h; simp at h
    · rw [if_neg hc] at h
      rcases hstop : isMdStop cs with _ | y
      · rw [hstop] at h
        have hrec := ih h
        rw [hasMd_cons_eq]
        by_cases hA : (c :: cs).take 3 = ['.', 'm', 'd']
        · rw [if_pos hA]
        · rw [if_neg hA]; exact hrec
      · have h3 := isMdStop_take hstop
        rcases cs with _ | ⟨d, cs'⟩
        · simp [isMdStop] at hstop
        · rw [hasMd_cons_eq]
          by_cases hA : (c :: d :: cs').take 3 = ['.', 'm', 'd']
          · rw [if_pos hA]
          · rw [if_neg hA, hasMd_cons_eq, if_pos h3]

theorem convertLinksAux_no_md {l : List Char} (h : hasMd l = false) :
    convertLinksAux l = l := by
  induction l with
  | nil => rfl
  | cons c cs ih =>
    have h2 := (hasMd_cons h).2
    rw [convertLinksAux_cons]
    rcases h1 : stripHrefEq (c :: cs) with _ | cs6
    · rw [ih h2]
    · have h6 : hasMd cs6 = false := hasMd_append (stripHrefEq_eq_some.mp h1 ▸ h)
      rcases hscan : scanGroup1 [] cs6 with _ | x
      · show (match scanGroup1 [] cs6 with
          | some (g1, anchor, rest) => mkReplacement g1 anchor ++ convertLinksAux rest
          | none => c :: convertLinksAux cs) = c :: cs
        rw [hscan, ih h2]
      · exact absurd (scanGroup1_hasMd hscan) (by simp [h6])

theorem convertLinksAux_no_href {l : List Char} (h : hasHref l = false) :
    convertLinksAux l = l := by
  induction l with
  | nil => rfl
  | cons c cs ih =>
    rw [hasHref_cons_eq, Bool.or_eq_false_iff] at h
    obtain ⟨h1, h2⟩ := h
    have h1' : stripHrefEq (c :: cs) = none := by
      rcases hx : stripHrefEq (c :: cs) with _ | v
      · rfl
      · rw [hx] at h1; simp at h1
    rw [convertLinksAux_cons, h1', ih h2]

theorem stripHrefEq_cons6 (a b c d e f : Char) (t : List Char) :
    stripHrefEq (a :: b :: c :: d :: e :: f :: t) =
      if a = 'h' ∧ b = 'r' ∧ c = 'e' ∧ d = 'f' ∧ e = '=' ∧ f = '"' then some t else none := rfl

theorem convertLinksAux_frame (u p a v : List Char) (hu : hasHref u = false) (hp : p ≠ [])
    (hq : '"' ∉ p) (hh : '#' ∉ p) (ha : validAnchor a) :
    convertLinksAux (u ++ (HREF6 ++ (p ++ '.' :: 'm' :: 'd' :: (a ++ '"' :: v))))
      = u ++ (mkReplacement p a ++ convertLinksAux v) := by
  induction u with
  | nil => exact convertLinksAux_href p a v hp hq hh ha
  | cons c u' ih =>
    rw [hasHref_cons_eq, Bool.or_eq_false_iff] at hu
    obtain ⟨hu1, hu2⟩ := hu
    have hnone : stripHrefEq
        (c :: (u' ++ (HREF6 ++ (p ++ '.' :: 'm' :: 'd' :: (a ++ '"' :: v))))) = none := by
      rcases u' with _ | ⟨x1, _ | ⟨x2, _ | ⟨x3, _ | ⟨x4, _ | ⟨x5, u''⟩⟩⟩⟩⟩
      · simp [stripHrefEq, HREF6]
      · simp [stripHrefEq, HREF6]
      · simp [stripHrefEq, HREF6]
      · simp [stripHrefEq, HREF6]
      · simp [stripHrefEq, HREF6]
      · have hcond : ¬(c = 'h' ∧ x1 = 'r' ∧ x2 = 'e' ∧ x3 = 'f' ∧ x4 = '=' ∧ x5 = '"') := by
          intro hcont
          rw [stripHrefEq_cons6, if_pos hcont] at hu1
          simp at hu1
        simp only [List.cons_append, stripHrefEq_cons6, if_neg hcond]
    simp only [List.cons_append]
    rw [convertLinksAux_cons, hnone, ih hu2]

theorem isPrefixOf_self_append (l t : List Char) : l.isPrefixOf (l ++ t) = true := by
  induction l with
  | nil => simp
  | cons c l ih => simp [ih]

theorem contains_eq_false_iff {l : List Char} {c : Char} : l.contains c = false ↔ c ∉ l := by
  rw [show l.contains c = List.elem c l from rfl, List.elem_eq_mem]
  simp

theorem takeWhile_all {l : List Char} {pr : Char → Bool} (h : ∀ c ∈ l, pr c = true) :
    l.takeWhile pr = l := by
  induction l with
  | nil => rfl
  | cons c t ih =>
    rw [List.takeWhile_cons, if_pos (h c (List.mem_cons_self c t))]
    rw [ih (fun d hd => h d (List.mem_cons_of_mem c hd))]

theorem finalSegment_no_slash {p : List Char} (h : '/' ∉ p) : finalSegment p = p := by
  unfold finalSegment
  rw [takeWhile_all (fun c hc => by
    simp only [decide_eq_true_eq]
    intro hcc
    exact h (hcc ▸ List.mem_reverse.mp hc))]
  exact List.reverse_reverse p

theorem mkReplacement_http (g1 a : List Char)
    (h : ("http://".data.isPrefixOf g1 || "https://".data.isPrefixOf g1) = true) :
    mkReplacement g1 a = HREF6 ++ g1 ++ ('.' :: 'm' :: 'd' :: a) ++ ['"'] := by
  rw [mkReplacement, if_pos h]

theorem mkReplacement_chapters (p a : List Char) :
    mkReplacement ("chapters/".data ++ p) a
      = HREF6 ++ finalSegment p ++ ('.' :: 'h' :: 't' :: 'm' :: 'l' :: a) ++ ['"'] := by
  have h1 : "http://".data.isPrefixOf ("chapters/".data ++ p) = false := rfl
  have h2 : "https://".data.isPrefixOf ("chapters/".data ++ p) = false := rfl
  have h3 : "chapters/".data.isPrefixOf ("chapters/".data ++ p) = true :=
    isPrefixOf_self_append _ _
  have h4 : ("chapters/".data ++ p).drop 9 = p := by
    have h5 := List.drop_left "chapters/".data p
    rw [show ("chapters/".data.length) = 9 from rfl] at h5
    exact h5
  rw [mkReplacement]
  simp only [h1, h2, h3, h4, Bool.or_self, if_true, if_false,
    Bool.false_eq_true, Bool.true_eq_false]
  by_cases hc : p.contains '/' = true
  · simp only [hc, if_true]
  · have hc' : p.contains '/' = false := by
      cases hcc : p.contains '/'
      · rfl
      · exact absurd hcc hc
    simp only [hc', Bool.false_eq_true, if_false]
    rw [finalSegment_no_slash (contains_eq_false_iff.mp hc')]

theorem mkReplacement_plain (g1 a : List Char)
    (h1 : "http://".data.isPrefixOf g1 = false) (h2 : "https://".data.isPrefixOf g1 = false)
    (h3 : "chapters/".data.isPrefixOf g1 = false) :
    mkReplacement g1 a
      = HREF6 ++ finalSegment g1 ++ ('.' :: 'h' :: 't' :: 'm' :: 'l' :: a) ++ ['"'] := by
  rw [mkReplacement]
  simp only [h1, h2, h3, Bool.or_self, Bool.false_eq_true, if_false]
  by_cases hc : g1.contains '/' = true
  · simp only [hc, if_true]
  · have hc' : g1.contains '/' = false := by
      cases hcc : g1.contains '/'
      · rfl
      · exact absurd hcc hc
    simp only [hc', Bool.false_eq_true, if_false]
    rw [finalSegment_no_slash (contains_eq_false_iff.mp hc')]

/-- Python `str.splitlines` restricted to the `\n`, `\r\n` and `\r` line
breaks (the breaks that occur in the repository's sources), producing no
trailing empty line. -/
def splitlinesAux : List Char → List Char → List (List Char)
  | acc, [] => if acc = [] then [] else [acc.reverse]
  | acc, '\x0d' :: '\n' :: cs => acc.reverse :: splitlinesAux [] cs
  | acc, '\x0d' :: cs => acc.reverse :: splitlinesAux [] cs
  | acc, '\n' :: cs => acc.reverse :: splitlinesAux [] cs
  | acc, c :: cs => splitlinesAux (c :: acc) cs

/-- The ASCII whitespace characters stripped by Python `str.strip`. -/
def isPySpace (c : Char) : Bool :=
  c == ' ' || c == '\t' || c == '\n' || c == '\x0d' || c == '\x0b' || c == '\x0c'

/-- Python `line.strip()` on character lists. -/
def pyStrip (l : List Char) : List Char :=
  ((l.dropWhile isPySpace).reverse.dropWhile isPySpace).reverse

/-- Python `re.sub(r"^#+\\s*", "", s)`: because the raw string contains an
escaped backslash, the compiled pattern is one or more `#`, then a literal
backslash, then zero or more letters `s`; when this pattern does not match
at the start, the string is returned unchanged. -/
def pySubHashes (s : List Char) : List Char :=
  let hs := s.takeWhile (fun c => c == '#')
  let rest := s.dropWhile (fun c => c == '#')
  if hs = [] then s
  else
    match rest with
    | '\x5c' :: r => r.dropWhile (fun c => c == 's')
    | _ => s

/-- The loop of `extract_title`: first line whose stripped form starts with
`#` is passed through the (broken) hash-stripping substitution; if no line
qualifies, the fallback is returned. -/
def extractTitleGo (fallback : String) : List (List Char) → String
  | [] => fallback
  | line :: rest =>
    let stripped := pyStrip line
    if stripped.take 1 = ['#'] then String.mk (pySubHashes stripped)
    else extractTitleGo fallback rest

/-- The Python function `extract_title`. -/
def extract_title (text fallback : String) : String :=
  extractTitleGo fallback (splitlinesAux [] text.data)

theorem mk_data (s : String) : String.mk s.data = s := by
  cases s; rfl

/-- Claim C1: the specification states that title extraction strips the
leading run of `#` characters and the whitespace following them, so that a
file beginning with `# Chapter One` yields the title `Chapter One`.  The
code's substitution uses the raw-string pattern with an escaped backslash
(matching a literal backslash rather than whitespace), so nothing is
stripped from an ordinary heading and the title keeps its `#` run: the code
returns `# Chapter One`.  The fallback half of the claim does hold. -/
theorem claim_C1_code_bug :
    extract_title ("# Chapter One") ("fallback") = ("# Chapter One")
    ∧ extract_title ("# Chapter One") ("fallback") ≠ ("Chapter One")
    ∧ extract_title ("no heading here") ("fallback") = ("fallback") := by
  refine ⟨by decide, by decide, by decide⟩

/-- Claim C2 counterexample: for the href value `chapters/sub/foo.md`, which
begins with `chapters/`, the code does not merely strip that prefix and swap
the suffix (which would give `sub/foo.html`); it also discards the remaining
directory component and produces `foo.html`. -/
theorem claim_C2_counterexample :
    convert_links ("href=\"chapters/sub/foo.md\"") = ("href=\"foo.html\"")
    ∧ convert_links ("href=\"chapters/sub/foo.md\"") ≠ ("href=\"sub/foo.html\"") := by
  refine ⟨by decide, by decide⟩

/-- Claim C2 (amended): a double-quoted href value `chapters/<path>.md` plus
optional fragment (path quote- and hash-free, fragment empty or `#` followed
by quote-free characters) is rewritten by stripping the `chapters/` prefix,
keeping only the final path segment of what remains when it still contains
`/`, replacing `.md` by `.html`, and preserving the fragment. -/
theorem claim_C2_amended (p a : List Char) (hp : p ≠ []) (hq : '"' ∉ p) (hh : '#' ∉ p)
    (ha : validAnchor a) :
    convert_links (String.mk ("href=\"chapters/".data ++ p ++ '.' :: 'm' :: 'd' :: (a ++ ['"'])))
      = String.mk (HREF6 ++ finalSegment p ++ '.' :: 'h' :: 't' :: 'm' :: 'l' :: (a ++ ['"'])) := by
  refine congrArg String.mk ?_
  have h0 : "href=\"chapters/".data = HREF6 ++ "chapters/".data := by decide
  have hP : ("chapters/".data ++ p) ≠ [] := by simp
  have hPq : '"' ∉ "chapters/".data ++ p := by
    intro hm
    rcases List.mem_append.mp hm with hm1 | hm2
    · exact absurd hm1 (by decide)
    · exact hq hm2
  have hPh : '#' ∉ "chapters/".data ++ p := by
    intro hm
    rcases List.mem_append.mp hm with hm1 | hm2
    · exact absurd hm1 (by decide)
    · exact hh hm2
  have key := convertLinksAux_href ("chapters/".data ++ p) a [] hP hPq hPh ha
  rw [mkReplacement_chapters] at key
  calc convertLinksAux ("href=\"chapters/".data ++ p ++ '.' :: 'm' :: 'd' :: (a ++ ['"']))
      = convertLinksAux
          (HREF6 ++ (("chapters/".data ++ p) ++ '.' :: 'm' :: 'd' :: (a ++ '"' :: []))) := by
        rw [h0]; simp [List.append_assoc]
    _ = (HREF6 ++ finalSegment p ++ ('.' :: 'h' :: 't' :: 'm' :: 'l' :: a) ++ ['"'])
          ++ convertLinksAux [] := key
    _ = HREF6 ++ finalSegment p ++ '.' :: 'h' :: 't' :: 'm' :: 'l' :: (a ++ ['"']) := by
        rw [convertLinksAux_nil]; simp [List.append_assoc]

/-- Claim C2 witness: the specification's example `chapters/foo.md#sec2`
becomes `foo.html#sec2`. -/
theorem claim_C2_witness :
    convert_links ("href=\"chapters/foo.md#sec2\"") = ("href=\"foo.html#sec2\"") := by
  have h := claim_C2_amended ("foo".data) ('#' :: "sec2".data) (by decide) (by decide)
    (by decide) (Or.inr ⟨"sec2".data, rfl, by decide⟩)
  have e1 : ("href=\"chapters/foo.md#sec2\"" : String)
      = String.mk ("href=\"chapters/".data ++ "foo".data
          ++ '.' :: 'm' :: 'd' :: (('#' :: "sec2".data) ++ ['"'])) := by decide
  have e2 : ("href=\"foo.html#sec2\"" : String)
      = String.mk (HREF6 ++ finalSegment ("foo".data)
          ++ '.' :: 'h' :: 't' :: 'm' :: 'l' :: (('#' :: "sec2".data) ++ ['"'])) := by decide
  rw [e1, e2]; exact h

/-- Claim C3 counterexample: link rewriting is not idempotent.  On
`href="a.md#b.md"` the first pass produces `href="a.html#b.md"`; the quoted
value of that output still ends in `.md` (inside its fragment), so a second
pass rewrites it again, to `href="a.html#b.html"`. -/
theorem claim_C3_counterexample :
    convert_links ("href=\"a.md#b.md\"") = ("href=\"a.html#b.md\"")
    ∧ convert_links (convert_links ("href=\"a.md#b.md\""))
        ≠ convert_links ("href=\"a.md#b.md\"") := by
  refine ⟨by decide, by decide⟩

/-- Claim C3 (amended): a second application of link rewriting changes
nothing provided the first output no longer contains the substring `.md`;
more generally any string without a `.md` substring is left untouched, and a
double-quoted href beginning with `http://` or `https://` is left
byte-for-byte unchanged even when it ends in `.md`.  Unrestricted
idempotence fails (see the counterexample). -/
theorem claim_C3_amended :
    (∀ s : String, hasMd (convert_links s).data = false →
      convert_links (convert_links s) = convert_links s)
    ∧ (∀ s : String, hasMd s.data = false → convert_links s = s)
    ∧ (∀ p a : List Char, p ≠ [] →
        ("http://".data.isPrefixOf p || "https://".data.isPrefixOf p) = true →
        '"' ∉ p → '#' ∉ p → validAnchor a →
        convert_links (String.mk (HREF6 ++ p ++ '.' :: 'm' :: 'd' :: (a ++ ['"'])))
          = String.mk (HREF6 ++ p ++ '.' :: 'm' :: 'd' :: (a ++ ['"']))) := by
  have noop : ∀ s : String, hasMd s.data = false → convert_links s = s := by
    intro s hs
    show String.mk (convertLinksAux s.data) = s
    rw [convertLinksAux_no_md hs, mk_data]
  refine ⟨fun s hs => noop _ hs, noop, ?_⟩
  intro p a hp hhttp hq hh ha
  refine congrArg String.mk ?_
  have key := convertLinksAux_href p a [] hp hq hh ha
  rw [mkReplacement_http p a hhttp] at key
  calc convertLinksAux (HREF6 ++ p ++ '.' :: 'm' :: 'd' :: (a ++ ['"']))
      = convertLinksAux (HREF6 ++ (p ++ '.' :: 'm' :: 'd' :: (a ++ '"' :: []))) := by
        simp [List.append_assoc]
    _ = (HREF6 ++ p ++ ('.' :: 'm' :: 'd' :: a) ++ ['"']) ++ convertLinksAux [] := key
    _ = HREF6 ++ p ++ '.' :: 'm' :: 'd' :: (a ++ ['"']) := by
        rw [convertLinksAux_nil]; simp [List.append_assoc]

/-- Claim C3 witness: an already-rewritten page with no `.md` left is a
fixed point, and an external `.md` link is untouched. -/
theorem claim_C3_witness :
    convert_links ("<a href=\"foo.html#sec\">ch</a>") = ("<a href=\"foo.html#sec\">ch</a>")
    ∧ convert_links ("href=\"http://example.com/a.md\"")
        = ("href=\"http://example.com/a.md\"") := by
  constructor
  · exact claim_C3_amended.2.1 ("<a href=\"foo.html#sec\">ch</a>") (by decide)
  · have h := claim_C3_amended.2.2 ("http://example.com/a".data) [] (by decide) (by decide)
      (by decide) (by decide) (Or.inl rfl)
    have e1 : ("href=\"http://example.com/a.md\"" : String)
        = String.mk (HREF6 ++ "http://example.com/a".data
            ++ '.' :: 'm' :: 'd' :: ([] ++ ['"'])) := by decide
    rw [e1]
    exact h.trans e1.symm

/-- Claim C4: a non-external `.md` href value that does not begin with
`chapters/` but contains a path separator `/` is reduced to its final path
segment with `.md` replaced by `.html` and the fragment preserved. -/
theorem claim_C4 (p a : List Char) (hp : p ≠ []) (hq : '"' ∉ p) (hh : '#' ∉ p)
    (h1 : "http://".data.isPrefixOf p = false) (h2 : "https://".data.isPrefixOf p = false)
    (h3 : "chapters/".data.isPrefixOf p = false) (hsl : p.contains '/' = true)
    (ha : validAnchor a) :
    convert_links (String.mk (HREF6 ++ p ++ '.' :: 'm' :: 'd' :: (a ++ ['"'])))
      = String.mk (HREF6 ++ finalSegment p ++ '.' :: 'h' :: 't' :: 'm' :: 'l' :: (a ++ ['"'])) := by
  refine congrArg String.mk ?_
  have key := convertLinksAux_href p a [] hp hq hh ha
  rw [mkReplacement_plain p a h1 h2 h3] at key
  calc convertLinksAux (HREF6 ++ p ++ '.' :: 'm' :: 'd' :: (a ++ ['"']))
      = convertLinksAux (HREF6 ++ (p ++ '.' :: 'm' :: 'd' :: (a ++ '"' :: []))) := by
        simp [List.append_assoc]
    _ = (HREF6 ++ finalSegment p ++ ('.' :: 'h' :: 't' :: 'm' :: 'l' :: a) ++ ['"'])
          ++ convertLinksAux [] := key
    _ = HREF6 ++ finalSegment p ++ '.' :: 'h' :: 't' :: 'm' :: 'l' :: (a ++ ['"']) := by
        rw [convertLinksAux_nil]; simp [List.append_assoc]

/-- Claim C4 witness: the specification's example `../glossary/bar.md`
becomes `bar.html`. -/
theorem claim_C4_witness :
    convert_links ("href=\"../glossary/bar.md\"") = ("href=\"bar.html\"") := by
  have h := claim_C4 ("../glossary/bar".data) [] (by decide) (by decide) (by decide)
    (by decide) (by decide) (by decide) (by decide) (Or.inl rfl)
  have e1 : ("href=\"../glossary/bar.md\"" : String)
      = String.mk (HREF6 ++ "../glossary/bar".data ++ '.' :: 'm' :: 'd' :: ([] ++ ['"'])) := by
    decide
  have e2 : ("href=\"bar.html\"" : String)
      = String.mk (HREF6 ++ finalSegment ("../glossary/bar".data)
          ++ '.' :: 'h' :: 't' :: 'm' :: 'l' :: ([] ++ ['"'])) := by decide
  rw [e1, e2]; exact h

/-- Claim C10 (frame property): the rewrite touches only double-quoted
`href` attributes whose value ends in `.md` plus an optional fragment.  A
string containing no occurrence of the characters `href="` — for example one
with `.md` in visible text or inside a single-quoted attribute — is returned
unchanged; and around a well-formed match the characters before it are
emitted verbatim while scanning continues after it. -/
theorem claim_C10 :
    (∀ s : String, hasHref s.data = false → convert_links s = s)
    ∧ (∀ u p a v : List Char, hasHref u = false → p ≠ [] → '"' ∉ p → '#' ∉ p →
        validAnchor a →
        convertLinksAux (u ++ (HREF6 ++ (p ++ '.' :: 'm' :: 'd' :: (a ++ '"' :: v))))
          = u ++ (mkReplacement p a ++ convertLinksAux v)) := by
  constructor
  · intro s hs
    show String.mk (convertLinksAux s.data) = s
    rw [convertLinksAux_no_href hs, mk_data]
  · exact fun u p a v hu hp hq hh ha => convertLinksAux_frame u p a v hu hp hq hh ha

/-- Claim C10 witness: a `.md` occurrence in visible text is untouched, and
a match embedded in surrounding text only rewrites the match. -/
theorem claim_C10_witness :
    convert_links ("<p>read notes.md now</p>") = ("<p>read notes.md now</p>")
    ∧ convertLinksAux ("<p>a.md</p>".data
        ++ (HREF6 ++ ("x".data ++ '.' :: 'm' :: 'd' :: ([] ++ '"' :: "</p>".data))))
      = "<p>a.md</p>".data
        ++ (mkReplacement ("x".data) [] ++ convertLinksAux ("</p>".data)) := by
  constructor
  · exact claim_C10.1 ("<p>read notes.md now</p>") (by decide)
  · exact claim_C10.2 ("<p>a.md</p>".data) ("x".data) [] ("</p>".data) (by decide)
      (by decide) (by decide) (by decide) (Or.inl rfl)

/-- One file of an input directory: its filename within the directory and
its text content (the model of reading a `Path`). -/
structure MdFile where
  name : String
  content : String

/-- The dataclass `Chapter`: source file, display title, output file name. -/
structure Chapter where
  source : MdFile
  title : String
  output_name : String

/-- The input side of the filesystem seen by the builder: the primary
`chapters/` directory, the auxiliary `glossary/` and `references/`
directories, the optional root `README.md` and the optional `assets/` and
`figures/` trees (as relative-path/content pairs). -/
structure InputFS where
  chaptersExists : Bool
  chaptersDir : List MdFile
  glossaryExists : Bool
  glossaryDir : List MdFile
  referencesExists : Bool
  referencesDir : List MdFile
  readme : Option String
  assets : Option (List (String × String))
  figures : Option (List (String × String))

/-- The whole filesystem: the inputs plus the output directory — `none` when
the output directory does not exist, otherwise the files it contains as an
association list from relative path to content. -/
structure FS where
  input : InputFS
  output : Option (List (String × String))

/-- Python `Path(name).stem`: the name without its final suffix; a suffix is
present when the last dot of the name is neither its first nor its last
character. -/
def pathStem (name : String) : String :=
  let l := name.data
  match l.reverse.findIdx? (fun c => c == '.') with
  | none => name
  | some j =>
    let i := l.length - 1 - j
    if 0 < i ∧ i < l.length - 1 then String.mk (l.take i) else name

/-- Comparison used by `sorted(dir_path.glob("*.md"))`: paths of one
directory compare by filename. -/
def byName (a b : MdFile) : Prop := a.name ≤ b.name

instance : DecidableRel byName := fun a b => inferInstanceAs (Decidable (a.name ≤ b.name))

instance : IsTotal MdFile byName := ⟨fun a b => le_total a.name b.name⟩

instance : IsTrans MdFile byName := ⟨fun _ _ _ h1 h2 => le_trans h1 h2⟩

/-- `sorted(dir_path.glob("*.md"))`: the `.md` files of a directory in
filename order. -/
def globMd (files : List MdFile) : List MdFile :=
  List.insertionSort byName (files.filter (fun f => f.name.endsWith (".md")))

/-- Build one `Chapter` record from a discovered file, as the loop bodies of
`build_chapters` do. -/
def mkChapter (f : MdFile) : Chapter :=
  ⟨f, extract_title f.content (pathStem f.name), pathStem f.name ++ (".html")⟩

/-- The ordered discovery of `build_chapters`: the primary `chapters/`
directory first, then `glossary/` and `references/` when they exist, each in
filename order. -/
def discoverChapters (inp : InputFS) : List Chapter :=
  (globMd inp.chaptersDir).map mkChapter
    ++ (if inp.glossaryExists then (globMd inp.glossaryDir).map mkChapter else [])
    ++ (if inp.referencesExists then (globMd inp.referencesDir).map mkChapter else [])

/-- The Python function `build_chapters`, which raises `FileNotFoundError`
when the primary directory is missing. -/
def build_chapters (inp : InputFS) : Except String (List Chapter) :=
  if inp.chaptersExists then Except.ok (discoverChapters inp)
  else Except.error ("Chapters directory not found")

/-- The constant `NAVIGATION_LINK`. -/
def NAVIGATION_LINK : String :=
  "<nav class=\"breadcrumbs\"><a href=\"index.html\">ホームに戻る</a></nav>"

/-- `HTML_TEMPLATE.format(title=..., nav=..., content=..., year=...)`: the
fixed page template with its four placeholders spliced in. -/
def htmlTemplate (title nav content : String) (year : Nat) : String :=
  ("<!DOCTYPE html>\n<html lang=\"ja\">\n<head>\n  <meta charset=\"utf-8\" />\n  <meta name=\"viewport\" content=\"width=device-width, initial-scale=1\" />\n  <title>")
    ++ title
    ++ (" | 貨幣論教科書</title>\n  <link rel=\"stylesheet\" href=\"assets/style.css\" />\n</head>\n<body>\n<header class=\"site-header\">\n  <h1><a href=\"index.html\">貨幣論教科書</a></h1>\n  <p class=\"tagline\">古典から現代までの貨幣論を学ぶ</p>\n</header>\n<main class=\"container\">\n  ")
    ++ nav
    ++ ("\n  <article class=\"content\">\n  ")
    ++ content
    ++ ("\n  </article>\n</main>\n<footer class=\"site-footer\">\n  <p>&copy; ")
    ++ toString year
    ++ (" 貨幣論プロジェクト</p>\n</footer>\n</body>\n</html>\n")

/-- `INDEX_TEMPLATE.format(items=..., year=...)`: the fixed chapter-list
template with its two placeholders spliced in. -/
def indexTemplate (items : String) (year : Nat) : String :=
  ("<!DOCTYPE html>\n<html lang=\"ja\">\n<head>\n  <meta charset=\"utf-8\" />\n  <meta name=\"viewport\" content=\"width=device-width, initial-scale=1\" />\n  <title>貨幣論教科書 | 章一覧</title>\n  <link rel=\"stylesheet\" href=\"assets/style.css\" />\n</head>\n<body>\n<header class=\"site-header\">\n  <h1>貨幣論教科書</h1>\n  <p class=\"tagline\">古典から現代までの貨幣論を学ぶ</p>\n</header>\n<main class=\"container\">\n  <section>\n    <h2>章一覧</h2>\n    <ul class=\"chapter-list\">\n      ")
    ++ items
    ++ ("\n    </ul>\n  </section>\n</main>\n<footer class=\"site-footer\">\n  <p>&copy; ")
    ++ toString year
    ++ (" 貨幣論プロジェクト</p>\n</footer>\n</body>\n</html>\n")

/-- The Python function `render_chapter`: render the source text with the
external markdown renderer (the parameter `md`), rewrite links, and splice
into the page template together with the breadcrumb navigation. -/
def render_chapter (md : String → String) (year : Nat) (ch : Chapter) : String :=
  htmlTemplate ch.title NAVIGATION_LINK (convert_links (md ch.source.content)) year

/-- The Python function `render_index_from_readme`. -/
def render_index_from_readme (md : String → String) (readme : Option String)
    (chapters : List Chapter) (year : Nat) : String :=
  match readme with
  | some content => htmlTemplate ("貨幣論教科書") ("") (convert_links (md content)) year
  | none =>
    indexTemplate (String.intercalate ("\n      ")
      (chapters.map (fun ch =>
        ("<li><a href=\"") ++ ch.output_name ++ ("\">") ++ ch.title ++ ("</a></li>")))) year

/-- Write (or overwrite) one file of the output directory. -/
def writeFileD (n c : String) (d : List (String × String)) : List (String × String) :=
  if d.any (fun e => e.1 == n) then
    d.map (fun e => if e.1 == n then (n, c) else e)
  else d ++ [(n, c)]

/-- The content of the output file named `n`, when present. -/
def lookupD (d : List (String × String)) (n : String) : Option String :=
  (d.find? (fun e => e.1 == n)).map (fun e => e.2)

/-- How many files of the output directory carry the name `n`. -/
def countName (d : List (String × String)) (n : String) : Nat :=
  (d.map (fun e => e.1)).count n

/-- No two files of the output directory share a name. -/
def keysNodup (d : List (String × String)) : Prop := (d.map (fun e => e.1)).Nodup

/-- The chapter-writing loop of `main`. -/
def writeChapters (md : String → String) (year : Nat) (chs : List Chapter)
    (d : List (String × String)) : List (String × String) :=
  chs.foldl (fun acc ch => writeFileD ch.output_name (render_chapter md year ch) acc) d

/-- The Python function `copy_static_assets`: merge-copy the optional
`assets/` and `figures/` trees into the output and always write the fixed
stylesheet, whose text is the opaque parameter `styleCss`. -/
def copy_static_assets (styleCss : String) (inp : InputFS)
    (d : List (String × String)) : List (String × String) :=
  let d1 := match inp.assets with
    | some files =>
      files.foldl (fun acc f => writeFileD (("assets/uploads/") ++ f.1) f.2 acc) d
    | none => d
  let d2 := match inp.figures with
    | some files =>
      files.foldl (fun acc f => writeFileD (("assets/figures/") ++ f.1) f.2 acc) d1
    | none => d1
  writeFileD ("assets/style.css") styleCss d2

/-- The Python entry point `main`: abort with `SystemExit` before touching
the output when the primary chapters directory is missing; otherwise destroy
and recreate the output directory, stage the assets, write every discovered
chapter in order and finally the index.  Returns the final filesystem
together with the fatal error, if any. -/
def mainFS (md : String → String) (styleCss : String) (year : Nat) (fs : FS) :
    FS × Option String :=
  if fs.input.chaptersExists then
    match build_chapters fs.input with
    | Except.ok chapters =>
      let d1 := copy_static_assets styleCss fs.input []
      let d2 := writeChapters md year chapters d1
      let d3 := writeFileD ("index.html")
        (render_index_from_readme md fs.input.readme chapters year) d2
      (⟨fs.input, some d3⟩, none)
    | Except.error e =>
      (⟨fs.input, some (copy_static_assets styleCss fs.input [])⟩, some e)
  else (fs, some ("chapters directory does not exist"))

theorem keys_overwrite (d : List (String × String)) (n c : String) :
    (d.map (fun e => if e.1 == n then (n, c) else e)).map (fun e => e.1)
      = d.map (fun e => e.1) := by
  rw [List.map_map]
  refine List.map_congr_left ?_
  intro e he
  by_cases hb : (e.1 == n) = true
  · have he1 : e.1 = n := by simpa using hb
    simp [Function.comp, hb, he1]
  · simp [Function.comp, hb]

theorem keysNodup_writeFileD (n c : String) {d : List (String × String)}
    (h : keysNodup d) : keysNodup (writeFileD n c d) := by
  unfold writeFileD
  by_cases hany : d.any (fun e => e.1 == n) = true
  · rw [if_pos hany]
    unfold keysNodup
    rw [keys_overwrite]
    exact h
  · rw [if_neg hany]
    unfold keysNodup
    rw [List.map_append]
    refine List.Nodup.append h (List.nodup_singleton _) ?_
    intro x hx hx2
    simp only [List.map_cons, List.map_nil, List.mem_singleton] at hx2
    subst hx2
    obtain ⟨e, he, rfl⟩ := List.mem_map.mp hx
    exact hany (List.any_eq_true.mpr ⟨e, he, by simp⟩)

theorem countName_writeFileD_self {d : List (String × String)} (n c : String)
    (h : keysNodup d) : countName (writeFileD n c d) n = 1 := by
  unfold writeFileD countName
  by_cases hany : d.any (fun e => e.1 == n) = true
  · rw [if_pos hany, keys_overwrite]
    have hmem : n ∈ d.map (fun e => e.1) := by
      obtain ⟨e, he, hp⟩ := List.any_eq_true.mp hany
      exact List.mem_map.mpr ⟨e, he, by simpa using hp⟩
    have hle := List.nodup_iff_count_le_one.mp h n
    have hpos : 0 < (d.map (fun e => e.1)).count n := List.count_pos_iff.mpr hmem
    omega
  · rw [if_neg hany, List.map_append, List.count_append]
    have h0 : (d.map (fun e => e.1)).count n = 0 := by
      rw [List.count_eq_zero]
      intro hmem
      obtain ⟨e, he, he1⟩ := List.mem_map.mp hmem
      exact hany (List.any_eq_true.mpr ⟨e, he, by simp [he1]⟩)
    simp [h0]

theorem countName_writeFileD_other {d : List (String × String)} (m c n : String)
    (hne : m ≠ n) : countName (writeFileD m c d) n = countName d n := by
  unfold writeFileD countName
  by_cases hany : d.any (fun e => e.1 == m) = true
  · rw [if_pos hany, keys_overwrite]
  · rw [if_neg hany, List.map_append, List.count_append]
    simp [List.count_cons, Ne.symm hne]

theorem find?_append_of_none {α : Type} {p : α → Bool} {l1 l2 : List α}
    (h : l1.find? p = none) : (l1 ++ l2).find? p = l2.find? p := by
  induction l1 with
  | nil => rfl
  | cons x t ih =>
    have hx : ¬p x = true := List.find?_eq_none.mp h x (List.mem_cons_self x t)
    rw [List.cons_append, List.find?_cons_of_neg _ hx]
    exact ih (List.find?_eq_none.mpr fun y hy =>
      List.find?_eq_none.mp h y (List.mem_cons_of_mem x hy))

theorem find?_append_eq {α : Type} {p : α → Bool} {l1 l2 : List α}
    (h2 : l2.find? p = none) : (l1 ++ l2).find? p = l1.find? p := by
  induction l1 with
  | nil => simpa using h2
  | cons x t ih =>
    rw [List.cons_append, List.find?_cons, List.find?_cons]
    cases hx : p x
    · simpa using ih
    · rfl

theorem find?_overwrite_self (d : List (String × String)) (n c : String)
    (hany : d.any (fun e => e.1 == n) = true) :
    (d.map (fun e => if e.1 == n then (n, c) else e)).find? (fun e => e.1 == n)
      = some (n, c) := by
  induction d with
  | nil => simp at hany
  | cons e t ih =>
    by_cases hb : (e.1 == n) = true
    · simp only [List.map_cons, if_pos hb, List.find?_cons]
      simp
    · have hb2 : (e.1 == n) = false := by simpa using hb
      simp only [List.map_cons, List.find?_cons, hb2, Bool.false_eq_true, if_false]
      apply ih
      rcases List.any_eq_true.mp hany with ⟨x, hx, hpx⟩
      rcases List.mem_cons.mp hx with rfl | hx2
      · exact absurd hpx hb
      · exact List.any_eq_true.mpr ⟨x, hx2, hpx⟩

theorem find?_overwrite_other (d : List (String × String)) (m c n : String)
    (hne : n ≠ m) :
    (d.map (fun e => if e.1 == m then (m, c) else e)).find? (fun e => e.1 == n)
      = d.find? (fun e => e.1 == n) := by
  have hmn : ((m : String) == n) = false := by
    rw [beq_eq_false_iff_ne]; exact Ne.symm hne
  induction d with
  | nil => rfl
  | cons e t ih =>
    by_cases hb : (e.1 == m) = true
    · have he1 : e.1 = m := by simpa using hb
      have hen : (e.1 == n) = false := by rw [he1]; exact hmn
      simp only [List.map_cons, if_pos hb, List.find?_cons, hmn, hen, ih]
    · by_cases hcn : (e.1 == n) = true
      · simp only [List.map_cons, if_neg hb, List.find?_cons, hcn]
      · have hen : (e.1 == n) = false := by simpa using hcn
        simp only [List.map_cons, if_neg hb, List.find?_cons, hen, ih]

theorem lookupD_writeFileD_self (d : List (String × String)) (n c : String) :
    lookupD (writeFileD n c d) n = some c := by
  unfold writeFileD lookupD
  by_cases hany : d.any (fun e => e.1 == n) = true
  · rw [if_pos hany, find?_overwrite_self d n c hany]
    rfl
  · rw [if_neg hany]
    have hnone : d.find? (fun e => e.1 == n) = none := by
      rw [List.find?_eq_none]
      intro x hx hpx
      exact hany (List.any_eq_true.mpr ⟨x, hx, hpx⟩)
    rw [find?_append_of_none hnone, List.find?_cons]
    simp

theorem lookupD_writeFileD_other (d : List (String × String)) (m c n : String)
    (hne : n ≠ m) : lookupD (writeFileD m c d) n = lookupD d n := by
  unfold writeFileD lookupD
  by_cases hany : d.any (fun e => e.1 == m) = true
  · rw [if_pos hany, find?_overwrite_other d m c n hne]
  · rw [if_neg hany]
    have hmn : ((m : String) == n) = false := by
      rw [beq_eq_false_iff_ne]; exact Ne.symm hne
    have h2 : ([(m, c)] : List (String × String)).find? (fun e => e.1 == n) = none := by
      simp [List.find?_cons, hmn]
    rw [find?_append_eq h2]

theorem keysNodup_writeChapters (md : String → String) (year : Nat)
    (chs : List Chapter) (d : List (String × String)) (h : keysNodup d) :
    keysNodup (writeChapters md year chs d) := by
  induction chs generalizing d with
  | nil => exact h
  | cons ch t ih => exact ih _ (keysNodup_writeFileD _ _ h)

theorem getLast?_cons_ne_none {α : Type} (y : α) (l : List α) :
    (y :: l).getLast? ≠ none := by
  rw [List.getLast?_eq_getLast _ (by simp)]
  simp

theorem lookupD_writeChapters (md : String → String) (year : Nat) (chs : List Chapter)
    (d : List (String × String)) (n : String) :
    lookupD (writeChapters md year chs d) n
      = match (chs.filter (fun c => c.output_name == n)).getLast? with
        | some chL => some (render_chapter md year chL)
        | none => lookupD d n := by
  induction chs generalizing d with
  | nil => rfl
  | cons ch t ih =>
    show lookupD (writeChapters md year t
      (writeFileD ch.output_name (render_chapter md year ch) d)) n = _
    rw [ih, List.filter_cons]
    by_cases hb : (ch.output_name == n) = true
    · have he : ch.output_name = n := by simpa using hb
      rw [if_pos hb]
      rcases hF : t.filter (fun c => c.output_name == n) with _ | ⟨y, l⟩
      · rw [hF]
        simp only [List.getLast?_singleton]
        show lookupD (writeFileD ch.output_name (render_chapter md year ch) d) n
          = some (render_chapter md year ch)
        rw [he]
        exact lookupD_writeFileD_self d n (render_chapter md year ch)
      · rw [hF, List.getLast?_cons_cons]
        rcases hG : (y :: l).getLast? with _ | z
        · exact absurd hG (getLast?_cons_ne_none y l)
        · rfl
    · have hne : n ≠ ch.output_name := fun hcc => hb (by simp [hcc])
      rw [if_neg (by simpa using hb)]
      rcases hF : t.filter (fun c => c.output_name == n) with _ | ⟨y, l⟩
      · rw [hF, lookupD_writeFileD_other _ _ _ _ hne]
      · rcases hG : (y :: l).getLast? with _ | z
        · exact absurd hG (getLast?_cons_ne_none y l)
        · rw [hF, hG]

theorem countName_writeChapters (md : String → String) (year : Nat) (chs : List Chapter)
    (d : List (String × String)) (n : String) (h : keysNodup d) :
    countName (writeChapters md year chs d) n
      = if chs.any (fun c => c.output_name == n) = true then 1 else countName d n := by
  induction chs generalizing d with
  | nil => simp [writeChapters]
  | cons ch t ih =>
    show countName (writeChapters md year t
      (writeFileD ch.output_name (render_chapter md year ch) d)) n = _
    rw [ih _ (keysNodup_writeFileD _ _ h)]
    by_cases hb : (ch.output_name == n) = true
    · have he : ch.output_name = n := by simpa using hb
      have hcons : (ch :: t).any (fun c => c.output_name == n) = true := by
        simp [List.any_cons, hb]
      by_cases hT : t.any (fun c => c.output_name == n) = true
      · rw [if_pos hT, if_pos hcons]
      · rw [if_neg hT, if_pos hcons, he, countName_writeFileD_self _ _ h]
    · have hne : ch.output_name ≠ n := fun hcc => hb (by simp [hcc])
      rw [countName_writeFileD_other _ _ _ hne]
      have hcons : (ch :: t).any (fun c => c.output_name == n)
          = t.any (fun c => c.output_name == n) := by
        simp [List.any_cons, hb]
      rw [hcons]

theorem keysNodup_foldl_write {α : Type} (f g : α → String) (l : List α)
    (d : List (String × String)) (h : keysNodup d) :
    keysNodup (l.foldl (fun acc x => writeFileD (f x) (g x) acc) d) := by
  induction l generalizing d with
  | nil => exact h
  | cons x t ih => exact ih _ (keysNodup_writeFileD _ _ h)

theorem keysNodup_copy_static_assets (styleCss : String) (inp : InputFS)
    (d : List (String × String)) (h : keysNodup d) :
    keysNodup (copy_static_assets styleCss inp d) := by
  simp only [copy_static_assets]
  apply keysNodup_writeFileD
  have h1 : keysNodup (match inp.assets with
      | some files =>
        files.foldl (fun acc f => writeFileD (("assets/uploads/") ++ f.1) f.2 acc) d
      | none => d) := by
    rcases inp.assets with _ | asts
    · exact h
    · exact keysNodup_foldl_write _ _ _ _ h
  rcases inp.figures with _ | figs
  · exact h1
  · exact keysNodup_foldl_write _ _ _ _ h1

theorem mainFS_ok (md : String → String) (styleCss : String) (year : Nat) (fs : FS)
    (h : fs.input.chaptersExists = true) :
    mainFS md styleCss year fs
      = (⟨fs.input, some (writeFileD ("index.html")
           (render_index_from_readme md fs.input.readme (discoverChapters fs.input) year)
           (writeChapters md year (discoverChapters fs.input)
             (copy_static_assets styleCss fs.input [])))⟩, none) := by
  rw [mainFS, if_pos h, build_chapters, if_pos h]

/-- Ordering of discovered chapters by source filename. -/
def chapOrd (a b : Chapter) : Prop := a.source.name ≤ b.source.name

theorem sorted_globMd_map (files : List MdFile) :
    List.Sorted chapOrd ((globMd files).map mkChapter) := by
  have hs := List.sorted_insertionSort byName
    (files.filter (fun f => f.name.endsWith (".md")))
  exact List.Pairwise.map mkChapter (fun a b hab => hab) hs

theorem perm_globMd_map (files : List MdFile) :
    List.Perm (((globMd files).map mkChapter).map (fun c => c.source))
      (files.filter (fun f => f.name.endsWith (".md"))) := by
  rw [List.map_map]
  rw [show ((fun c : Chapter => c.source) ∘ mkChapter) = fun f => f from rfl]
  rw [List.map_id']
  exact List.perm_insertionSort byName _

/-- Claim C5: when the primary chapters directory does not exist, the run
terminates with the fatal `SystemExit` before any output is produced: the
output directory is neither deleted nor created and no file is written — the
whole filesystem is returned unchanged, together with the error. -/
theorem claim_C5 (md : String → String) (styleCss : String) (year : Nat) (fs : FS)
    (h : fs.input.chaptersExists = false) :
    mainFS md styleCss year fs = (fs, some ("chapters directory does not exist")) := by
  rw [mainFS, if_neg (by simp [h])]

/-- Claim C5 witness: a run over a filesystem with no chapters directory and
a stale output tree leaves everything, the stale output included, untouched. -/
theorem claim_C5_witness :
    mainFS (fun s => s) ("css") 2024
        ⟨⟨false, [], false, [], false, [], none, none, none⟩,
          some [(("stale.html"), ("old"))]⟩
      = (⟨⟨false, [], false, [], false, [], none, none, none⟩,
          some [(("stale.html"), ("old"))]⟩,
         some ("chapters directory does not exist")) :=
  claim_C5 _ _ _ _ rfl

/-- Claim C6: after a successful run every discovered markdown source has
exactly one output file in the output tree, named base name plus `.html`;
when several discovered sources share a base name they share that single
output file, and its content is the rendering of the last-discovered one
(the later write silently overwrites the earlier), stated for output names
other than the separately written `index.html`. -/
theorem claim_C6 (md : String → String) (styleCss : String) (year : Nat) (fs : FS)
    (h : fs.input.chaptersExists = true) :
    ∃ outd, ((mainFS md styleCss year fs).1).output = some outd
      ∧ ∀ ch ∈ discoverChapters fs.input,
          countName outd ch.output_name = 1
          ∧ (ch.output_name ≠ ("index.html") →
              ∃ chL, ((discoverChapters fs.input).filter
                  (fun c => c.output_name == ch.output_name)).getLast? = some chL
                ∧ lookupD outd ch.output_name
                    = some (render_chapter md year chL)) := by
  rw [mainFS_ok md styleCss year fs h]
  refine ⟨_, rfl, ?_⟩
  intro ch hm
  have hnd1 : keysNodup (copy_static_assets styleCss fs.input []) :=
    keysNodup_copy_static_assets _ _ _ (by simp [keysNodup])
  have hnd2 : keysNodup (writeChapters md year (discoverChapters fs.input)
      (copy_static_assets styleCss fs.input [])) :=
    keysNodup_writeChapters _ _ _ _ hnd1
  constructor
  · by_cases hidx : ch.output_name = ("index.html")
    · rw [hidx]
      exact countName_writeFileD_self _ _ hnd2
    · rw [countName_writeFileD_other _ _ _ (fun hcc => hidx hcc.symm)]
      rw [countName_writeChapters _ _ _ _ _ hnd1, if_pos]
      exact List.any_eq_true.mpr ⟨ch, hm, by simp⟩
  · intro hidx
    have hlast : ∃ chL, ((discoverChapters fs.input).filter
        (fun c => c.output_name == ch.output_name)).getLast? = some chL := by
      rcases hF : (discoverChapters fs.input).filter
          (fun c => c.output_name == ch.output_name) with _ | ⟨y, l⟩
      · exfalso
        have hmem : ch ∈ (discoverChapters fs.input).filter
            (fun c => c.output_name == ch.output_name) :=
          List.mem_filter.mpr ⟨hm, by simp⟩
        rw [hF] at hmem
        exact absurd hmem (List.not_mem_nil ch)
      · rcases hG : (y :: l).getLast? with _ | z
        · exact absurd hG (getLast?_cons_ne_none y l)
        · exact ⟨z, by rw [hF, hG]⟩
    obtain ⟨chL, hL⟩ := hlast
    refine ⟨chL, hL, ?_⟩
    rw [lookupD_writeFileD_other _ _ _ _ hidx]
    rw [lookupD_writeChapters, hL]

/-- Claim C6 witness: a concrete run over two chapter files. -/
theorem claim_C6_witness :
    ∃ outd, ((mainFS (fun s => s) ("css") 2024
        ⟨⟨true, [⟨("b.md"), ("x")⟩, ⟨("a.md"), ("# T")⟩], false, [], false, [],
          some ("R"), none, none⟩, none⟩).1).output = some outd
      ∧ ∀ ch ∈ discoverChapters ⟨true, [⟨("b.md"), ("x")⟩, ⟨("a.md"), ("# T")⟩],
          false, [], false, [], some ("R"), none, none⟩,
          countName outd ch.output_name = 1
          ∧ (ch.output_name ≠ ("index.html") →
              ∃ chL, ((discoverChapters ⟨true, [⟨("b.md"), ("x")⟩, ⟨("a.md"), ("# T")⟩],
                  false, [], false, [], some ("R"), none, none⟩).filter
                  (fun c => c.output_name == ch.output_name)).getLast? = some chL
                ∧ lookupD outd ch.output_name
                    = some (render_chapter (fun s => s) 2024 chL)) :=
  claim_C6 _ _ _ _ rfl

/-- Claim C7: chapter discovery returns the files of the primary chapters
directory first, then the glossary directory, then the references directory;
each segment holds exactly the `.md` files of the corresponding directory in
lexicographic filename order (an absent auxiliary directory contributes
nothing), and every record is derived from its source file. -/
theorem claim_C7 (inp : InputFS) (h : inp.chaptersExists = true) :
    ∃ A B C2,
      build_chapters inp = Except.ok (A ++ B ++ C2)
      ∧ List.Sorted chapOrd A ∧ List.Sorted chapOrd B ∧ List.Sorted chapOrd C2
      ∧ List.Perm (A.map (fun c => c.source))
          (inp.chaptersDir.filter (fun f => f.name.endsWith (".md")))
      ∧ (inp.glossaryExists = true →
          List.Perm (B.map (fun c => c.source))
            (inp.glossaryDir.filter (fun f => f.name.endsWith (".md"))))
      ∧ (inp.glossaryExists = false → B = [])
      ∧ (inp.referencesExists = true →
          List.Perm (C2.map (fun c => c.source))
            (inp.referencesDir.filter (fun f => f.name.endsWith (".md"))))
      ∧ (inp.referencesExists = false → C2 = [])
      ∧ (∀ c ∈ A ++ B ++ C2, c = mkChapter c.source) := by
  refine ⟨(globMd inp.chaptersDir).map mkChapter,
    if inp.glossaryExists then (globMd inp.glossaryDir).map mkChapter else [],
    if inp.referencesExists then (globMd inp.referencesDir).map mkChapter else [],
    ?_, sorted_globMd_map _, ?_, ?_, perm_globMd_map _, ?_, ?_, ?_, ?_, ?_⟩
  · rw [build_chapters, if_pos h]
    rfl
  · by_cases hg : inp.glossaryExists = true
    · rw [if_pos hg]
      exact sorted_globMd_map _
    · rw [if_neg hg]
      exact List.sorted_nil
  · by_cases hg : inp.referencesExists = true
    · rw [if_pos hg]
      exact sorted_globMd_map _
    · rw [if_neg hg]
      exact List.sorted_nil
  · intro hg
    rw [if_pos hg]
    exact perm_globMd_map _
  · intro hg
    rw [if_neg (by simp [hg])]
  · intro hg
    rw [if_pos hg]
    exact perm_globMd_map _
  · intro hg
    rw [if_neg (by simp [hg])]
  · intro c hc
    rcases List.mem_append.mp hc with hc1 | hcC
    · rcases List.mem_append.mp hc1 with hcA | hcB
      · obtain ⟨f, -, rfl⟩ := List.mem_map.mp hcA
        rfl
      · by_cases hg : inp.glossaryExists = true
        · rw [if_pos hg] at hcB
          obtain ⟨f, -, rfl⟩ := List.mem_map.mp hcB
          rfl
        · rw [if_neg hg] at hcB
          exact absurd hcB (List.not_mem_nil c)
    · by_cases hg : inp.referencesExists = true
      · rw [if_pos hg] at hcC
        obtain ⟨f, -, rfl⟩ := List.mem_map.mp hcC
        rfl
      · rw [if_neg hg] at hcC
        exact absurd hcC (List.not_mem_nil c)

/-- Claim C7 witness: discovery over a concrete unsorted primary directory
holding a non-markdown file, with absent auxiliary directories. -/
theorem claim_C7_witness :
    ∃ A B C2,
      build_chapters ⟨true, [⟨("b.md"), ("x")⟩, ⟨("a.md"), ("y")⟩, ⟨("c.txt"), ("z")⟩],
          false, [], false, [], none, none, none⟩ = Except.ok (A ++ B ++ C2)
      ∧ List.Sorted chapOrd A ∧ List.Sorted chapOrd B ∧ List.Sorted chapOrd C2
      ∧ List.Perm (A.map (fun c => c.source))
          ([⟨("b.md"), ("x")⟩, ⟨("a.md"), ("y")⟩, ⟨("c.txt"), ("z")⟩].filter
              (fun f => f.name.endsWith (".md")))
      ∧ ((false : Bool) = true →
          List.Perm (B.map (fun c => c.source))
            (([] : List MdFile).filter (fun f => f.name.endsWith (".md"))))
      ∧ ((false : Bool) = false → B = [])
      ∧ ((false : Bool) = true →
          List.Perm (C2.map (fun c => c.source))
            (([] : List MdFile).filter (fun f => f.name.endsWith (".md"))))
      ∧ ((false : Bool) = false → C2 = [])
      ∧ (∀ c ∈ A ++ B ++ C2, c = mkChapter c.source) :=
  claim_C7 _ rfl

/-- Claim C8: the index file is written under the name `index.html` and its
content branches exactly on the existence of the root `README.md`: when it
exists, the rendered and link-rewritten README is wrapped in the page
template with an empty navigation slot (no breadcrumb) rather than in the
chapter-list template; when it is absent, the chapter-list template is used
with one `<li>` link entry per discovered chapter, built from the chapter's
output filename and title, joined in discovery order. -/
theorem claim_C8 (md : String → String) (styleCss : String) (year : Nat) (fs : FS)
    (h : fs.input.chaptersExists = true) :
    ∃ outd, ((mainFS md styleCss year fs).1).output = some outd
      ∧ lookupD outd ("index.html")
          = some (render_index_from_readme md fs.input.readme
              (discoverChapters fs.input) year)
      ∧ (∀ r, fs.input.readme = some r →
          render_index_from_readme md fs.input.readme (discoverChapters fs.input) year
            = htmlTemplate ("貨幣論教科書") ("") (convert_links (md r)) year)
      ∧ (fs.input.readme = none →
          render_index_from_readme md fs.input.readme (discoverChapters fs.input) year
            = indexTemplate (String.intercalate ("\n      ")
                ((discoverChapters fs.input).map (fun ch =>
                  ("<li><a href=\"") ++ ch.output_name ++ ("\">") ++ ch.title
                    ++ ("</a></li>")))) year) := by
  rw [mainFS_ok md styleCss year fs h]
  refine ⟨_, rfl, lookupD_writeFileD_self _ _ _, ?_, ?_⟩
  · intro r hr
    rw [hr]
    rfl
  · intro hr
    rw [hr]
    rfl

/-- Claim C8 witness: a concrete run with a root README present. -/
theorem claim_C8_witness :
    ∃ outd, ((mainFS (fun s => s) ("css") 2024
        ⟨⟨true, [⟨("a.md"), ("t")⟩], false, [], false, [], some ("R"), none, none⟩,
          none⟩).1).output = some outd
      ∧ lookupD outd ("index.html")
          = some (render_index_from_readme (fun s => s)
              (some ("R"))
              (discoverChapters ⟨true, [⟨("a.md"), ("t")⟩], false, [], false, [],
                some ("R"), none, none⟩) 2024)
      ∧ (∀ r, (some ("R") : Option String) = some r →
          render_index_from_readme (fun s => s) (some ("R"))
              (discoverChapters ⟨true, [⟨("a.md"), ("t")⟩], false, [], false, [],
                some ("R"), none, none⟩) 2024
            = htmlTemplate ("貨幣論教科書") ("") (convert_links r) 2024)
      ∧ ((some ("R") : Option String) = none →
          render_index_from_readme (fun s => s) (some ("R"))
              (discoverChapters ⟨true, [⟨("a.md"), ("t")⟩], false, [], false, [],
                some ("R"), none, none⟩) 2024
            = indexTemplate (String.intercalate ("\n      ")
                ((discoverChapters ⟨true, [⟨("a.md"), ("t")⟩], false, [], false, [],
                  some ("R"), none, none⟩).map (fun ch =>
                  ("<li><a href=\"") ++ ch.output_name ++ ("\">") ++ ch.title
                    ++ ("</a></li>")))) 2024) :=
  claim_C8 _ _ _ _ rfl

/-- Claim C9: the build is deterministic over its input: a successful run
reports no error, and running the builder again on the filesystem the first
run produced (the inputs unchanged, the output directory destroyed and
recreated from scratch) succeeds and yields a byte-identical output tree. -/
theorem claim_C9 (md : String → String) (styleCss : String) (year : Nat) (fs : FS)
    (h : fs.input.chaptersExists = true) :
    (mainFS md styleCss year fs).2 = none
    ∧ (mainFS md styleCss year ((mainFS md styleCss year fs).1)).2 = none
    ∧ ((mainFS md styleCss year ((mainFS md styleCss year fs).1)).1).output
        = ((mainFS md styleCss year fs).1).output := by
  have h1 := mainFS_ok md styleCss year fs h
  have hinput : ((mainFS md styleCss year fs).1).input = fs.input := by rw [h1]
  have h2 := mainFS_ok md styleCss year ((mainFS md styleCss year fs).1)
    (by rw [hinput]; exact h)
  refine ⟨by rw [h1], by rw [h2], ?_⟩
  rw [h2, h1]

/-- Claim C9 witness: two successive runs over a concrete filesystem agree
on the output tree. -/
theorem claim_C9_witness :
    (mainFS (fun s => s) ("css") 2024
        ⟨⟨true, [⟨("a.md"), ("t")⟩], false, [], false, [], none, none, none⟩, none⟩).2
      = none
    ∧ (mainFS (fun s => s) ("css") 2024 ((mainFS (fun s => s) ("css") 2024
        ⟨⟨true, [⟨("a.md"), ("t")⟩], false, [], false, [], none, none, none⟩,
          none⟩).1)).2 = none
    ∧ ((mainFS (fun s => s) ("css") 2024 ((mainFS (fun s => s) ("css") 2024
        ⟨⟨true, [⟨("a.md"), ("t")⟩], false, [], false, [], none, none, none⟩,
          none⟩).1)).1).output
        = ((mainFS (fun s => s) ("css") 2024
            ⟨⟨true, [⟨("a.md"), ("t")⟩], false, [], false, [], none, none, none⟩,
              none⟩).1).output :=
  claim_C9 _ _ _ _ rfl

end BuildSite
